import Mathlib

/-!
Shallow embedding of the multi-armed-bandit simulation
(`src/bandit_utils.py`, `src/strategies.py`).

Numpy float arrays are embedded as Lean lists over the real numbers; the
single place where IEEE-754 infinities matter (the UCB exploration bonus
with a zero action count) is embedded with `EReal`, so that division of a
positive numerator by zero yields `⊤` exactly as numpy produces `inf`.
Randomness (standard-normal draws for arm values, rewards, and drift) is
embedded by passing the drawn values in explicitly as streams `ℕ → ℝ`:
every function below is the deterministic part of the Python code, applied
to the samples the global generator would have produced.
-/

namespace MAB

noncomputable section

/-- An arm of the bandit (`Arm` in `bandit_utils.py`): its current true
value `q` and the standard deviation `incrDev` of the per-step drift. -/
structure Arm where
  q : ℝ
  incrDev : ℝ

/-- `Arm.__init__` / the `q` setter: an explicit value is used verbatim,
`None` is replaced by a draw from the standard normal distribution, which
the embedding receives as `sample`. -/
def mkArm (incrDev : ℝ) (sample : ℝ) : Option ℝ → Arm
  | some v => ⟨v, incrDev⟩
  | none => ⟨sample, incrDev⟩

/-- `Arm.reset_q`: add the drawn drift increment `noise` to the true value,
but only when `incr_dev != 0` (a stationary arm is left untouched). -/
def Arm.resetQ (noise : ℝ) (a : Arm) : Arm :=
  if a.incrDev ≠ 0 then { a with q := a.q + noise } else a

/-- The arm-list comprehension `[Arm(self.incr_dev, arm_value) for arm_value
in self.q]`: one arm per specification entry, consuming one standard-normal
sample per position (only the `none` entries actually use their sample). -/
def mkArms (incrDev : ℝ) (samples : ℕ → ℝ) : ℕ → List (Option ℝ) → List Arm
  | _, [] => []
  | i, oq :: rest => mkArm incrDev (samples i) oq :: mkArms incrDev samples (i + 1) rest

/-- The multi-armed bandit (`Bandit` in `bandit_utils.py`): the declared arm
count `n`, the stored specification list `qSpec` (the `_q` attribute:
`[None] * n` when no explicit values were given, otherwise a copy of the
caller's list), the drift deviation, and the current arms. -/
structure Bandit where
  n : ℕ
  qSpec : List (Option ℝ)
  incrDev : ℝ
  arms : List Arm

/-- `Bandit.__init__`: the `q` setter validates an explicit value list
(raising `ValueError` on a length mismatch, embedded as `Except.error`) or
substitutes `[None] * n`; then the arms are built from the stored list. -/
def banditInit (n : ℕ) (q : Option (List ℝ)) (incrDev : ℝ) (samples : ℕ → ℝ) :
    Except String Bandit :=
  match q with
  | none =>
      let spec := List.replicate n (none : Option ℝ)
      .ok ⟨n, spec, incrDev, mkArms incrDev samples 0 spec⟩
  | some v =>
      if v.length ≠ n then
        .error ("Lenght of arm`s values not equal to the number of arms")
      else
        let spec := v.map some
        .ok ⟨n, spec, incrDev, mkArms incrDev samples 0 spec⟩

/-- `Bandit.reset`: rebuild the arm list from the stored specification,
drawing fresh standard-normal samples for the unspecified entries. -/
def Bandit.reset (samples : ℕ → ℝ) (b : Bandit) : Bandit :=
  { b with arms := mkArms b.incrDev samples 0 b.qSpec }

/-- The state effect of `Bandit.action`: every arm drifts via `reset_q`
(the reward draw itself does not change any state, so the returned sample
is not part of the state transition). `noise i` is the drift increment
drawn for arm `i`. -/
def Bandit.actionState (noise : ℕ → ℝ) (b : Bandit) : Bandit :=
  { b with arms := b.arms.mapIdx fun i a => a.resetQ (noise i) }

/-- The reward returned by `Bandit.action(indx)`: a draw from
`N(q, 1)` for the post-drift chosen arm, embedded as the post-drift true
value plus the drawn unit-normal deviation `rewardNoise`. -/
def Bandit.actionReward (noise : ℕ → ℝ) (rewardNoise : ℝ) (b : Bandit) (indx : ℕ) : ℝ :=
  ((b.actionState noise).arms.getD indx ⟨0, 0⟩).q + rewardNoise

/-! ### Strategies (`src/strategies.py`)

A strategy is called as
`estimate_values(preferences, number_of_actions, indx, reward)` and returns
the new preference vector; the stateful variants additionally mutate their
own fields, so each variant is embedded as a pure function from its state
and the arguments to the new state and the returned vector.  Action counts
are the numpy float array `_number_of_actions`, which only ever holds the
naturals `0, 1, 2, …`, so it is embedded as `List ℕ` and coerced to `ℝ`
where the Python code divides by an entry. -/

/-- `SampleAverages.estimate_values`: the chosen entry moves toward the
reward by `1 / number_of_actions[indx]` of the gap; the strategy is
stateless. -/
def sampleAveragesEstimate (preferences : List ℝ) (numberOfActions : List ℕ)
    (indx : ℕ) (reward : ℝ) : List ℝ :=
  let p := preferences.getD indx 0
  preferences.set indx (p + 1 / (numberOfActions.getD indx 0 : ℝ) * (reward - p))

/-- `ConstantStepSize.estimate_values`: the chosen entry moves toward the
reward by the fixed fraction `alpha`. -/
def constantStepSizeEstimate (alpha : ℝ) (preferences : List ℝ)
    (indx : ℕ) (reward : ℝ) : List ℝ :=
  let p := preferences.getD indx 0
  preferences.set indx (p + alpha * (reward - p))

/-! #### UCB

The returned vector `self.values + self.c * (np.log(self.time) /
number_of_actions) ** 0.5` contains IEEE `inf` at every index whose action
count is zero (numpy: positive / 0 = `inf`, `inf ** 0.5 = inf`,
finite + positive·`inf` = `inf`), so the returned preferences are embedded
in `EReal`.  In every reachable call `np.log(self.time) > 0` (the counter
starts at 1 and is incremented before being read) and the numerator of the
division is positive, which the embedding of the division assumes. -/

/-- IEEE-754 division for a positive numerator: `a / 0 = +∞`, otherwise the
real quotient (numpy semantics of `np.log(self.time) / number_of_actions`
for the positive numerator arising from `time ≥ 2`). -/
def fdivPos (a b : ℝ) : EReal :=
  if b = 0 then ⊤ else ((a / b : ℝ) : EReal)

/-- IEEE-754 square root extended to `+∞` (numpy `x ** 0.5` on a
nonnegative or infinite argument). -/
def esqrt (x : EReal) : EReal :=
  if x = ⊤ then ⊤ else ((Real.sqrt x.toReal : ℝ) : EReal)

/-- The mutable state of `UCB`: the exploration constant `c`, the time
counter (initialised to 1) and the lazily created internal value array. -/
structure UCBState where
  c : ℝ
  time : ℕ
  values : Option (List ℝ)

/-- `UCB.__init__`. -/
def ucbInit (c : ℝ) : UCBState := ⟨c, 1, none⟩

/-- `UCB.estimate_values`: lazily create the internal value array sized to
the incoming preference vector, increment the time, update the chosen
internal value by the sample-average rule, and return
`values + c * (log(time) / number_of_actions) ** 0.5`. -/
def ucbEstimate (st : UCBState) (preferences : List EReal) (numberOfActions : List ℕ)
    (indx : ℕ) (reward : ℝ) : UCBState × List EReal :=
  let values0 := st.values.getD (List.replicate preferences.length 0)
  let time := st.time + 1
  let v := values0.getD indx 0
  let values := values0.set indx (v + 1 / (numberOfActions.getD indx 0 : ℝ) * (reward - v))
  (⟨st.c, time, some values⟩,
   values.zipWith
     (fun (val : ℝ) (cnt : ℕ) =>
       (val : EReal) + (st.c : EReal) * esqrt (fdivPos (Real.log time) (cnt : ℝ)))
     numberOfActions)

/-! #### GradientBandit -/

/-- The mutable state of `GradientBandit`: the step size `alpha`, the
running mean reward and time counter (both initialised to 0) and the lazily
created action-probability vector. -/
structure GradState where
  alpha : ℝ
  meanReward : ℝ
  time : ℕ
  probs : Option (List ℝ)

/-- `GradientBandit.__init__`. -/
def gradInit (alpha : ℝ) : GradState := ⟨alpha, 0, 0, none⟩

/-- `GradientBandit._derive_probs`: softmax of the preference vector —
exponentiate elementwise, then divide by the sum. -/
def deriveProbs (preferences : List ℝ) : List ℝ :=
  let e := preferences.map Real.exp
  e.map fun x => x / e.sum

/-- `GradientBandit.estimate_values`: lazily initialise the probabilities
to the uniform distribution, increment the time, update the mean reward by
the sample-average rule, subtract `alpha * (reward - mean_reward) * probs`
from every preference, add `alpha * (reward - mean_reward)` to the chosen
preference, and recompute the probabilities as the softmax of the result. -/
def gradEstimate (st : GradState) (preferences : List ℝ) (indx : ℕ) (reward : ℝ) :
    GradState × List ℝ :=
  let probs0 := st.probs.getD (List.replicate preferences.length (1 / (preferences.length : ℝ)))
  let time := st.time + 1
  let meanReward := st.meanReward + 1 / (time : ℝ) * (reward - st.meanReward)
  let prefs1 := preferences.zipWith (fun q p => q - st.alpha * (reward - meanReward) * p) probs0
  let prefs2 := prefs1.set indx (prefs1.getD indx 0 + st.alpha * (reward - meanReward))
  (⟨st.alpha, meanReward, time, some (deriveProbs prefs2)⟩, prefs2)

/-! ### BanditPlayer (`bandit_utils.py`)

`np.argmax` returns the first index at which the maximum value occurs; the
player's exploitation branch applies it to the preference vector, which for
a UCB player may contain `inf`, hence the `EReal` version. -/

/-- `np.argmax` on an extended-real array: the first index of the maximum
together with that maximum (`⊥` for the empty array, on which numpy would
raise). -/
def argmaxP : List EReal → ℕ × EReal
  | [] => (0, ⊥)
  | x :: xs =>
      let r := argmaxP xs
      if r.2 ≤ x then (0, x) else (r.1 + 1, r.2)

/-- The index `np.argmax` picks. -/
def argmaxE (l : List EReal) : ℕ := (argmaxP l).1

/-- `self._number_of_actions[indx] += 1` at the top of
`BanditPlayer.use_arm`: the counts array passed on to the strategy. -/
def incCount (counts : List ℕ) (indx : ℕ) : List ℕ :=
  counts.set indx (counts.getD indx 0 + 1)

/-- The preference/count state a `BanditPlayer` threads through
`use_arm` when its strategy is the stateless `SampleAverages`. -/
structure SAState where
  prefs : List ℝ
  counts : List ℕ

/-- `BanditPlayer.use_arm` with the `SampleAverages` strategy: increment
the chosen action count, then let the strategy recompute the preferences
from the incremented counts.  `reward` is the value the owned bandit's
`action` call returned. -/
def saUseArm (s : SAState) (indx : ℕ) (reward : ℝ) : SAState :=
  let counts := incCount s.counts indx
  ⟨sampleAveragesEstimate s.prefs counts indx reward, counts⟩

/-- `BanditPlayer.run` with the `SampleAverages` strategy, over a given
sequence of chosen indices and drawn rewards. -/
def saRun (s : SAState) : List (ℕ × ℝ) → SAState
  | [] => s
  | (indx, reward) :: rest => saRun (saUseArm s indx reward) rest

/-- `np.zeros(n)` followed by `if self.optimist: self._preferences +=
self.baseline` — the construction-time (and post-reset) preference
vector. -/
def initPrefs (n : ℕ) (optimist : Bool) (baseline : ℝ) : List ℝ :=
  let z := List.replicate n (0 : ℝ)
  if optimist then z.map (· + baseline) else z

/-- `BanditPlayer` holding a `UCB` strategy.  The Python object also
stores `eps` and a display name; `eps` only feeds the exploration coin in
`get_arms_id`, whose draws are externalised, and the name is cosmetic.
The preferences are `EReal` because the UCB output can contain `inf`. -/
structure UCBPlayer where
  eps : ℝ
  nSteps : ℕ
  optimist : Bool
  baseline : ℝ
  bandit : Bandit
  rewards : List ℝ
  numberOfActions : List ℕ
  preferences : List EReal
  strategy : UCBState

/-- `BanditPlayer.__init__` with a fresh `UCB(c)` strategy.  The deep copy
of the bandit argument is value semantics here. -/
def mkUCBPlayer (bandit : Bandit) (eps : ℝ) (nSteps : ℕ) (c : ℝ)
    (optimist : Bool) (baseline : ℝ) : UCBPlayer :=
  ⟨eps, nSteps, optimist, baseline, bandit,
   List.replicate nSteps 0, List.replicate bandit.n 0,
   (initPrefs bandit.n optimist baseline).map (fun (x : ℝ) => (x : EReal)),
   ucbInit c⟩

/-- `BanditPlayer.get_arms_id`: if the `binomial(1, eps)` draw came up 1
(`explore`), the uniformly drawn index `randIndx`; otherwise
`np.argmax(self._preferences)`. -/
def UCBPlayer.getArmsId (p : UCBPlayer) (explore : Bool) (randIndx : ℕ) : ℕ :=
  if explore then randIndx else argmaxE p.preferences

/-- `BanditPlayer.use_arm` with a `UCB` strategy: increment the chosen
action count, pull the owned bandit (drifting every arm), feed the reward
to the strategy, store the returned preferences, and return the reward. -/
def UCBPlayer.useArm (p : UCBPlayer) (driftNoise : ℕ → ℝ) (rewardNoise : ℝ)
    (indx : ℕ) : UCBPlayer × ℝ :=
  let counts := incCount p.numberOfActions indx
  let reward := p.bandit.actionReward driftNoise rewardNoise indx
  let r := ucbEstimate p.strategy p.preferences counts indx reward
  ({ p with bandit := p.bandit.actionState driftNoise,
            numberOfActions := counts, preferences := r.2, strategy := r.1 },
   reward)

/-- The loop body of `BanditPlayer.run` from step number `step` on, over a
given sequence of chosen indices and drawn noises:
`self.rewards[step] = self.use_arm(indx)`. -/
def UCBPlayer.runSeq (p : UCBPlayer) (step : ℕ) :
    List (ℕ × (ℕ → ℝ) × ℝ) → UCBPlayer
  | [] => p
  | (indx, dn, rn) :: rest =>
      let r := p.useArm dn rn indx
      UCBPlayer.runSeq { r.1 with rewards := r.1.rewards.set step r.2 } (step + 1) rest

/-- `BanditPlayer.reset`: reset the owned bandit and reinitialise the
rewards, action counts and preferences; the strategy object is the one
field `reset` leaves alone. -/
def UCBPlayer.reset (p : UCBPlayer) (samples : ℕ → ℝ) : UCBPlayer :=
  let b := p.bandit.reset samples
  { p with bandit := b,
           rewards := List.replicate p.nSteps 0,
           numberOfActions := List.replicate b.n 0,
           preferences := (initPrefs b.n p.optimist p.baseline).map (fun (x : ℝ) => (x : EReal)) }

/-! ### Benchmark (`Benchmark.run`)

Per epoch `e = 1, 2, …` the running average of a player is updated by
`avg += 1/e * (rewards - avg)`; the embedding processes the fixed sequence
of per-epoch reward arrays that the players would have produced. -/

/-- One benchmark fold: `self._avg_rewards[i] += 1/epoch *
(player.rewards - self._avg_rewards[i])` (elementwise on the arrays). -/
def benchUpdate (epoch : ℕ) (avg rewards : List ℝ) : List ℝ :=
  avg.zipWith (fun a r => a + 1 / (epoch : ℝ) * (r - a)) rewards

/-- The epoch loop of `Benchmark.run` starting at epoch number `e`,
restricted to one player's running average. -/
def benchRunFrom (e : ℕ) (avg : List ℝ) : List (List ℝ) → List ℝ
  | [] => avg
  | rewards :: rest => benchRunFrom (e + 1) (benchUpdate e avg rewards) rest

/-- `Benchmark.run` for one player over a fixed sequence of per-epoch
reward arrays: epochs are numbered from 1 and the average starts at
`np.zeros(n_steps)`. -/
def benchRun (nSteps : ℕ) (epochs : List (List ℝ)) : List ℝ :=
  benchRunFrom 1 (List.replicate nSteps 0) epochs

/-! ### Helper lemmas -/

theorem getD_set_self {α : Type} (l : List α) (i : ℕ) (x d : α) (h : i < l.length) :
    (l.set i x).getD i d = x := by
  rw [List.getD_eq_getElem?_getD, List.getElem?_set_self h]
  rfl

theorem getD_set_ne {α : Type} (l : List α) (i j : ℕ) (x d : α) (h : i ≠ j) :
    (l.set i x).getD j d = l.getD j d := by
  rw [List.getD_eq_getElem?_getD, List.getElem?_set_ne h, ← List.getD_eq_getElem?_getD]

theorem getD_zipWith {α β γ : Type} (f : α → β → γ) (l1 : List α) (l2 : List β) (t : ℕ)
    (d1 : α) (d2 : β) (d3 : γ) (h1 : t < l1.length) (h2 : t < l2.length) :
    (List.zipWith f l1 l2).getD t d3 = f (l1.getD t d1) (l2.getD t d2) := by
  rw [List.getD_eq_getElem _ _ (by simp only [List.length_zipWith, lt_min_iff]; exact ⟨h1, h2⟩),
      List.getD_eq_getElem _ _ h1, List.getD_eq_getElem _ _ h2, List.getElem_zipWith]

theorem getD_replicate_self {α : Type} (n t : ℕ) (x d : α) (h : t < n) :
    (List.replicate n x).getD t d = x := by
  rw [List.getD_eq_getElem _ _ (by simpa using h)]
  simp

theorem mkArms_length (incrDev : ℝ) (samples : ℕ → ℝ) (i : ℕ) (spec : List (Option ℝ)) :
    (mkArms incrDev samples i spec).length = spec.length := by
  induction spec generalizing i with
  | nil => rfl
  | cons oq rest ih => simp [mkArms, ih]

theorem mkArms_map_q (incrDev : ℝ) (samples : ℕ → ℝ) (i : ℕ) (v : List ℝ) :
    (mkArms incrDev samples i (v.map some)).map Arm.q = v := by
  induction v generalizing i with
  | nil => rfl
  | cons x rest ih => simp [mkArms, mkArm, ih]

/-! ### C7: construction-time validation of explicit arm values -/

/-- C7. `Bandit.__init__` raises `ValueError` exactly when an explicit
per-arm value list's length differs from the declared arm count `n`; on a
match it succeeds and the arms carry exactly the supplied values, and with
no explicit list it always succeeds with `n` arms. -/
theorem c7_construction_validates_length (n : ℕ) (v : List ℝ) (d : ℝ) (s : ℕ → ℝ) :
    ((∃ e, banditInit n (some v) d s = Except.error e) ↔ v.length ≠ n) ∧
    (v.length = n → ∃ b, banditInit n (some v) d s = Except.ok b ∧
        b.arms.map Arm.q = v ∧ b.arms.length = n) ∧
    (∃ b, banditInit n none d s = Except.ok b ∧ b.arms.length = n) := by
  refine ⟨⟨fun ⟨e, he⟩ => ?_,
      fun h => ⟨"Lenght of arm`s values not equal to the number of arms",
        by simp [banditInit, h]⟩⟩, fun h => ?_, ?_⟩
  · by_contra hlen
    simp [banditInit, hlen] at he
  · refine ⟨⟨n, v.map some, d, mkArms d s 0 (v.map some)⟩,
      by simp [banditInit, h], mkArms_map_q d s 0 v, ?_⟩
    show (mkArms d s 0 (v.map some)).length = n
    rw [mkArms_length]
    simpa using h
  · refine ⟨⟨n, List.replicate n none, d, mkArms d s 0 (List.replicate n none)⟩,
      by simp [banditInit], ?_⟩
    show (mkArms d s 0 (List.replicate n none)).length = n
    rw [mkArms_length]
    simp

/-- C7 witness: with `n = 2` a three-value list is rejected and a
two-value list `[1, -1]` is accepted verbatim. -/
theorem c7_witness :
    (∃ e, banditInit 2 (some [1, -1, 5]) 0 (fun _ => 0) = Except.error e) ∧
    (∃ b, banditInit 2 (some [(1 : ℝ), -1]) 0 (fun _ => 0) = Except.ok b ∧
        b.arms.map Arm.q = [(1 : ℝ), -1] ∧ b.arms.length = 2) := by
  constructor
  · exact (c7_construction_validates_length 2 [1, -1, 5] 0 (fun _ => 0)).1.mpr (by decide)
  · exact (c7_construction_validates_length 2 [(1 : ℝ), -1] 0 (fun _ => 0)).2.1 (by decide)

/-! ### C8: drift never touches the stored specification; reset restores
explicit values verbatim -/

/-- C8. For a bandit constructed from an explicit value list, any number of
`action` calls (each drifting every arm in place) leaves the stored
specification list unchanged, and `reset()` afterwards rebuilds arms whose
true values are exactly the originally supplied list. -/
theorem c8_reset_restores_explicit_values (n : ℕ) (v : List ℝ) (d : ℝ) (s0 s : ℕ → ℝ)
    (noises : List (ℕ → ℝ)) (b0 : Bandit)
    (h : banditInit n (some v) d s0 = Except.ok b0) :
    (noises.foldl (fun b dn => b.actionState dn) b0).qSpec = b0.qSpec ∧
    ((noises.foldl (fun b dn => b.actionState dn) b0).reset s).arms.map Arm.q = v := by
  have hspec : ∀ (l : List (ℕ → ℝ)) (b : Bandit),
      (l.foldl (fun b dn => b.actionState dn) b).qSpec = b.qSpec ∧
      (l.foldl (fun b dn => b.actionState dn) b).incrDev = b.incrDev := by
    intro l
    induction l with
    | nil => exact fun _ => ⟨rfl, rfl⟩
    | cons dn rest ih => intro b; exact ⟨(ih _).1, (ih _).2⟩
  have hb0 : b0.qSpec = v.map some := by
    by_cases hlen : v.length = n
    · simp [banditInit, hlen] at h
      rw [← h]
    · simp [banditInit, hlen] at h
  refine ⟨(hspec noises b0).1, ?_⟩
  rw [Bandit.reset, (hspec noises b0).1, (hspec noises b0).2, hb0, mkArms_map_q]

/-- C8 witness: a two-armed bandit with values `[1, -1]` and nonzero drift,
after one `action` step with drift noise `7`, resets back to exactly
`[1, -1]`. -/
theorem c8_witness :
    ((([fun _ => (7 : ℝ)] : List (ℕ → ℝ)).foldl (fun b dn => b.actionState dn)
        (⟨2, [some 1, some (-1)], 1, mkArms 1 (fun _ => 0) 0 [some 1, some (-1)]⟩ : Bandit)).reset
        (fun _ => 0)).arms.map Arm.q = [(1 : ℝ), -1] :=
  (c8_reset_restores_explicit_values 2 [1, -1] 1 (fun _ => 0) (fun _ => 0)
    [fun _ => (7 : ℝ)] _ (by simp [banditInit])).2

/-! ### C2: the benchmark's incremental update computes the exact mean -/

theorem benchUpdate_length (epoch : ℕ) (avg rewards : List ℝ) (h : rewards.length = avg.length) :
    (benchUpdate epoch avg rewards).length = avg.length := by
  simp [benchUpdate, h]

theorem benchRunFrom_getD (epochs : List (List ℝ)) :
    ∀ (k : ℕ) (avg : List ℝ) (t : ℕ),
      (∀ rs ∈ epochs, rs.length = avg.length) → t < avg.length →
      (1 ≤ k ∨ epochs ≠ []) →
      (benchRunFrom (k + 1) avg epochs).getD t 0 =
        ((k : ℝ) * avg.getD t 0 + (epochs.map (fun rs => rs.getD t 0)).sum)
          / ((k : ℝ) + epochs.length) := by
  induction epochs with
  | nil =>
      intro k avg t _ _ hk
      have hk1 : 1 ≤ k := hk.resolve_right (by simp)
      have hkR : (k : ℝ) ≠ 0 := Nat.cast_ne_zero.mpr (by omega)
      simp only [benchRunFrom, List.map_nil, List.sum_nil, List.length_nil, Nat.cast_zero,
        add_zero]
      field_simp
  | cons rs rest ih =>
      intro k avg t hlen ht _
      have hrs : rs.length = avg.length := hlen rs (by simp)
      have havg : (benchUpdate (k + 1) avg rs).length = avg.length :=
        benchUpdate_length _ _ _ hrs
      have step : (benchUpdate (k + 1) avg rs).getD t 0 =
          avg.getD t 0 + 1 / ((k : ℝ) + 1) * (rs.getD t 0 - avg.getD t 0) := by
        rw [benchUpdate, getD_zipWith _ _ _ _ 0 0 0 ht (hrs ▸ ht)]
        push_cast
        ring
      have := ih (k + 1) (benchUpdate (k + 1) avg rs) t
        (fun rs' h' => (hlen rs' (by simp [h'])).trans havg.symm) (havg ▸ ht) (Or.inl (by omega))
      rw [benchRunFrom, this, step]
      have hk1 : ((k : ℝ) + 1) ≠ 0 := by positivity
      have hden : ((k : ℝ) + 1 + (rest.length : ℝ)) ≠ 0 := by positivity
      simp only [List.map_cons, List.sum_cons, List.length_cons]
      push_cast
      field_simp
      ring

/-- C2. After `Benchmark.run` has folded epochs `1..e` with the update
`avg += 1/epoch * (rewards - avg)`, the held running average equals, at
every step position, the exact arithmetic mean over the epochs of the
per-epoch rewards at that position — the incremental update is a true
mean, not a moving window. -/
theorem c2_benchmark_exact_mean (nSteps : ℕ) (epochs : List (List ℝ)) (t : ℕ)
    (hlen : ∀ rs ∈ epochs, rs.length = nSteps) (ht : t < nSteps) (hne : epochs ≠ []) :
    (benchRun nSteps epochs).getD t 0 =
      (epochs.map (fun rs => rs.getD t 0)).sum / (epochs.length : ℝ) := by
  have h0 : ∀ rs ∈ epochs, rs.length = (List.replicate nSteps (0 : ℝ)).length := by
    simpa using hlen
  have := benchRunFrom_getD epochs 0 (List.replicate nSteps 0) t h0 (by simpa using ht)
    (Or.inr hne)
  rw [benchRun, this, getD_replicate_self _ _ _ _ ht]
  push_cast
  ring_nf

/-- C2 witness: two epochs of two steps each; at step position 0 the
running average is the true mean `(1 + 3) / 2`. -/
theorem c2_witness :
    (benchRun 2 [[1, 10], [3, 20]]).getD 0 0 =
      (([[(1 : ℝ), 10], [3, 20]].map (fun rs => rs.getD 0 0)).sum) / 2 := by
  have := c2_benchmark_exact_mean 2 [[1, 10], [3, 20]] 0 (by decide) (by decide) (by decide)
  simpa using this

/-! ### C4: the sample-average strategy computes the exact mean of the
chosen arm's rewards, regardless of initialisation -/

theorem saRun_pref (steps : List (ℕ × ℝ)) :
    ∀ (s : SAState) (a : ℕ), a < s.prefs.length → a < s.counts.length →
      1 ≤ s.counts.getD a 0 + (steps.filter (fun q => q.1 = a)).length →
      (saRun s steps).prefs.getD a 0 =
        ((s.counts.getD a 0 : ℝ) * s.prefs.getD a 0 +
            ((steps.filter (fun q => q.1 = a)).map Prod.snd).sum)
          / ((s.counts.getD a 0 : ℝ) + ((steps.filter (fun q => q.1 = a)).length : ℝ)) := by
  induction steps with
  | nil =>
      intro s a _ _ hpos
      simp only [List.filter_nil, List.length_nil, Nat.add_zero] at hpos ⊢
      have : ((s.counts.getD a 0 : ℕ) : ℝ) ≠ 0 := Nat.cast_ne_zero.mpr (by omega)
      simp only [saRun, List.map_nil, List.sum_nil, add_zero, Nat.cast_zero]
      rw [mul_comm, mul_div_assoc, div_self this, mul_one]
  | cons q rest ih =>
      intro s a ha hc hpos
      obtain ⟨i, r⟩ := q
      by_cases hia : i = a
      · subst hia
        set c := s.counts.getD i 0 with hc0
        have hcounts : (incCount s.counts i).getD i 0 = c + 1 :=
          getD_set_self _ _ _ _ hc
        have hpref : (saUseArm s i r).prefs.getD i 0 =
            s.prefs.getD i 0 + 1 / ((c : ℝ) + 1) * (r - s.prefs.getD i 0) := by
          rw [saUseArm]
          simp only [sampleAveragesEstimate]
          rw [getD_set_self _ _ _ _ ha, hcounts]
          push_cast
          ring_nf
        have hlen1 : i < (saUseArm s i r).prefs.length := by
          simpa [saUseArm, sampleAveragesEstimate] using ha
        have hlen2 : i < (saUseArm s i r).counts.length := by
          simpa [saUseArm, incCount] using hc
        have := ih (saUseArm s i r) i hlen1 hlen2 (by
          show 1 ≤ (saUseArm s i r).counts.getD i 0 + _
          show 1 ≤ (incCount s.counts i).getD i 0 + _
          rw [hcounts]; omega)
        have hcounts2 : (saUseArm s i r).counts.getD i 0 = c + 1 := hcounts
        rw [saRun, this, hcounts2, hpref]
        simp only [List.filter_cons, decide_eq_true_eq, if_pos rfl, List.map_cons,
          List.sum_cons, List.length_cons]
        have h1 : ((c : ℝ) + 1) ≠ 0 := by positivity
        push_cast
        field_simp
        ring
      · have hne : (saUseArm s i r).counts.getD a 0 = s.counts.getD a 0 :=
          getD_set_ne _ _ _ _ _ hia
        have hprefne : (saUseArm s i r).prefs.getD a 0 = s.prefs.getD a 0 := by
          simp only [saUseArm, sampleAveragesEstimate]
          exact getD_set_ne _ _ _ _ _ hia
        have hfil : ((⟨i, r⟩ : ℕ × ℝ) :: rest).filter (fun q => q.1 = a) =
            rest.filter (fun q => q.1 = a) := by
          simp [List.filter_cons, hia]
        have hlen1 : a < (saUseArm s i r).prefs.length := by
          simpa [saUseArm, sampleAveragesEstimate] using ha
        have hlen2 : a < (saUseArm s i r).counts.length := by
          simpa [saUseArm, incCount] using hc
        have := ih (saUseArm s i r) a hlen1 hlen2 (by rw [hne]; rw [hfil] at hpos; exact hpos)
        rw [saRun, this, hne, hprefne, hfil]

/-- C4. For a player with the `SampleAverages` strategy and zero initial
action counts: after any interleaved run in which arm `a` was chosen `k ≥ 1`
times, the preference of `a` is the exact arithmetic mean of the rewards it
received — independent of the initial preference vector (in particular of
an optimistic baseline), because the count passed to the update includes
the current pull. -/
theorem c4_sample_average_exact_mean (prefs0 : List ℝ) (n : ℕ) (steps : List (ℕ × ℝ))
    (a k : ℕ) (hn : prefs0.length = n) (ha : a < n)
    (hk : (steps.filter (fun q => q.1 = a)).length = k) (hk1 : 1 ≤ k) :
    (saRun ⟨prefs0, List.replicate n 0⟩ steps).prefs.getD a 0 =
      ((steps.filter (fun q => q.1 = a)).map Prod.snd).sum / (k : ℝ) := by
  have hc : (List.replicate n (0 : ℕ)).getD a 0 = 0 := getD_replicate_self _ _ _ _ ha
  have := saRun_pref steps ⟨prefs0, List.replicate n 0⟩ a (by simpa [hn] using ha)
    (by simpa using ha) (by simp only [hc]; omega)
  rw [this]
  simp only [hc, hk, Nat.cast_zero, zero_mul, zero_add]

/-- C4 witness: arm 0 pulled twice with rewards 2 and 4 (another arm pulled
in between), starting from the optimistic preference vector `[5, 5]`: the
final preference of arm 0 is `(2 + 4) / 2`. -/
theorem c4_witness :
    (saRun ⟨[5, 5], List.replicate 2 0⟩ [(0, 2), (1, 100), (0, 4)]).prefs.getD 0 0 =
      (([(0, (2 : ℝ)), (1, 100), (0, 4)].filter (fun q => q.1 = 0)).map Prod.snd).sum / 2 :=
  c4_sample_average_exact_mean [5, 5] 2 [(0, 2), (1, 100), (0, 4)] 0 2
    (by decide) (by decide) (by rfl) (by decide)

/-! ### C5: the gradient-bandit two-phase update equals the per-case
softmax-policy-gradient update -/

/-- C5. One call to `GradientBandit.estimate_values` with pre-update
probabilities `probs` (the uniform vector on the first call), preference
vector `prefs`, chosen index and reward: the time counter is incremented,
the mean reward is updated by the sample-average rule first, and the
returned preferences satisfy the per-case update
`new[indx] = old[indx] + α·(r − m)·(1 − probs[indx])` and
`new[j] = old[j] − α·(r − m)·probs[j]` for `j ≠ indx`, with `m` the
post-update mean — the implementation's subtract-everywhere-then-add-to-
chosen computation equals this per-case form. -/
theorem c5_gradient_two_phase (st : GradState) (prefs probs : List ℝ) (indx : ℕ)
    (reward : ℝ)
    (hpr : st.probs.getD (List.replicate prefs.length (1 / (prefs.length : ℝ))) = probs)
    (hlen : probs.length = prefs.length) (hidx : indx < prefs.length) :
    (gradEstimate st prefs indx reward).1.time = st.time + 1 ∧
    (gradEstimate st prefs indx reward).1.meanReward =
      st.meanReward + 1 / ((st.time + 1 : ℕ) : ℝ) * (reward - st.meanReward) ∧
    (gradEstimate st prefs indx reward).2.getD indx 0 =
      prefs.getD indx 0 +
        st.alpha * (reward - (gradEstimate st prefs indx reward).1.meanReward) *
          (1 - probs.getD indx 0) ∧
    (∀ j, j < prefs.length → j ≠ indx →
      (gradEstimate st prefs indx reward).2.getD j 0 =
        prefs.getD j 0 -
          st.alpha * (reward - (gradEstimate st prefs indx reward).1.meanReward) *
            probs.getD j 0) := by
  have hm : (gradEstimate st prefs indx reward).1.meanReward =
      st.meanReward + 1 / ((st.time + 1 : ℕ) : ℝ) * (reward - st.meanReward) := rfl
  set m := st.meanReward + 1 / ((st.time + 1 : ℕ) : ℝ) * (reward - st.meanReward) with hmdef
  have hlen1 : (prefs.zipWith (fun q p => q - st.alpha * (reward - m) * p) probs).length
      = prefs.length := by
    simp [List.length_zipWith, hlen]
  have hzip : ∀ j, j < prefs.length →
      (prefs.zipWith (fun q p => q - st.alpha * (reward - m) * p) probs).getD j 0 =
        prefs.getD j 0 - st.alpha * (reward - m) * probs.getD j 0 :=
    fun j hj => getD_zipWith _ _ _ _ 0 0 0 hj (hlen ▸ hj)
  have hout : (gradEstimate st prefs indx reward).2 =
      (prefs.zipWith (fun q p => q - st.alpha * (reward - m) * p) probs).set indx
        ((prefs.zipWith (fun q p => q - st.alpha * (reward - m) * p) probs).getD indx 0 +
          st.alpha * (reward - m)) := by
    simp only [gradEstimate, hpr, hmdef]
  refine ⟨rfl, hm, ?_, ?_⟩
  · rw [hout, hm, getD_set_self _ _ _ _ (hlen1 ▸ hidx), hzip indx hidx]
    ring
  · intro j hj hji
    rw [hout, hm, getD_set_ne _ _ _ _ _ (fun h => hji h.symm), hzip j hj]

/-- C5 witness: the first call (`probs = none`, so uniform `[1/2, 1/2]`) on
a two-arm player with zero preferences, reward 1 and chosen index 0. -/
theorem c5_witness :
    ((gradEstimate (gradInit 0.1) [0, 0] 0 1).1.time = 0 + 1) ∧
    ((gradEstimate (gradInit 0.1) [0, 0] 0 1).1.meanReward =
      0 + 1 / ((0 + 1 : ℕ) : ℝ) * (1 - 0)) ∧
    ((gradEstimate (gradInit 0.1) [0, 0] 0 1).2.getD 0 0 =
      ([(0 : ℝ), 0]).getD 0 0 +
        0.1 * (1 - (gradEstimate (gradInit 0.1) [0, 0] 0 1).1.meanReward) *
          (1 - (List.replicate ([(0 : ℝ), 0]).length
                  (1 / (([(0 : ℝ), 0]).length : ℝ))).getD 0 0)) := by
  have h := c5_gradient_two_phase (gradInit 0.1) [0, 0]
    (List.replicate ([(0 : ℝ), 0]).length (1 / (([(0 : ℝ), 0]).length : ℝ)))
    0 1 rfl (by simp) (by simp)
  exact ⟨h.1, h.2.1, h.2.2.1⟩

/-! ### C6: the recomputed probability vector always sums to 1 -/

theorem sum_map_div (l : List ℝ) (r : ℝ) : (l.map (fun x => x / r)).sum = l.sum / r := by
  induction l with
  | nil => simp
  | cons x xs ih => simp [ih, add_div]

theorem deriveProbs_sum (l : List ℝ) (h : l ≠ []) : (deriveProbs l).sum = 1 := by
  have hpos : 0 < (l.map Real.exp).sum :=
    List.sum_pos _ (by rintro x hx; obtain ⟨y, _, rfl⟩ := List.mem_map.mp hx
                       exact Real.exp_pos y)
      (by simpa using h)
  rw [deriveProbs, sum_map_div, div_self (ne_of_gt hpos)]

/-- C6. After every call to `GradientBandit.estimate_values` on a nonempty
preference vector (with the held probability vector sized to it), the
internal probability vector is the softmax of the new preferences and sums
to exactly 1 in real arithmetic. -/
theorem c6_probs_sum_one (st : GradState) (prefs : List ℝ) (indx : ℕ) (reward : ℝ)
    (hne : prefs ≠ [])
    (hlen : (st.probs.getD
        (List.replicate prefs.length (1 / (prefs.length : ℝ)))).length = prefs.length) :
    ∃ l, (gradEstimate st prefs indx reward).1.probs = some l ∧ l.sum = 1 := by
  refine ⟨_, rfl, ?_⟩
  apply deriveProbs_sum
  have h1 : prefs.length ≠ 0 := fun h => hne (List.eq_nil_of_length_eq_zero h)
  intro hc
  have := congrArg List.length hc
  simp only [List.length_set, List.length_zipWith, hlen, List.length_nil, min_self] at this
  exact h1 this

/-- C6 witness: a concrete second-style call with held probabilities
`[1/2, 1/2]` over two arms. -/
theorem c6_witness :
    ∃ l, (gradEstimate ⟨0.1, 0, 1, some [1 / 2, 1 / 2]⟩ [3, -4] 1 2).1.probs = some l ∧
      l.sum = 1 :=
  c6_probs_sum_one ⟨0.1, 0, 1, some [1 / 2, 1 / 2]⟩ [3, -4] 1 2 (by simp) (by simp)

/-! ### C3: the UCB preference vector and the infinite bonus of untried
arms -/

theorem argmaxP_le (l : List EReal) : ∀ x ∈ l, x ≤ (argmaxP l).2 := by
  induction l with
  | nil => simp
  | cons y ys ih =>
      intro x hx
      rw [argmaxP]
      rcases List.mem_cons.mp hx with rfl | hmem
      · by_cases h : (argmaxP ys).2 ≤ x
        · simp [h]
        · simp only [h, if_false]
          exact le_of_not_le h
      · by_cases h : (argmaxP ys).2 ≤ y
        · simp only [h, if_true]
          exact le_trans (ih x hmem) h
        · simp only [h, if_false]
          exact ih x hmem

theorem argmaxP_lt_length (l : List EReal) (h : l ≠ []) : (argmaxP l).1 < l.length := by
  induction l with
  | nil => exact absurd rfl h
  | cons y ys ih =>
      rw [argmaxP]
      by_cases hy : (argmaxP ys).2 ≤ y
      · simp [hy]
      · have hys : ys ≠ [] := by
          rintro rfl
          exact hy bot_le
        simp only [hy, if_false, List.length_cons]
        exact Nat.succ_lt_succ (ih hys)

theorem argmaxP_getD (l : List EReal) (h : l ≠ []) :
    l.getD (argmaxP l).1 ⊥ = (argmaxP l).2 := by
  induction l with
  | nil => exact absurd rfl h
  | cons y ys ih =>
      rw [argmaxP]
      by_cases hy : (argmaxP ys).2 ≤ y
      · simp [hy]
      · have hys : ys ≠ [] := by
          rintro rfl
          exact hy bot_le
        simp only [hy, if_false]
        show ys.getD (argmaxP ys).1 ⊥ = (argmaxP ys).2
        exact ih hys

theorem argmaxE_top (l : List EReal) (i : ℕ) (hi : i < l.length) (htop : l.getD i ⊥ = ⊤) :
    l.getD (argmaxE l) ⊥ = ⊤ := by
  have hne : l ≠ [] := by
    rintro rfl
    simp at hi
  have hmem : (⊤ : EReal) ∈ l := by
    rw [List.getD_eq_getElem _ _ hi] at htop
    exact htop ▸ List.getElem_mem hi
  have := argmaxP_le l ⊤ hmem
  rw [argmaxE, argmaxP_getD l hne]
  exact top_le_iff.mp this

/-- C3. One call to `UCB.estimate_values` with a positive action count at
the chosen index: the time counter is incremented before the update, the
chosen internal value moves by the sample-average rule, and the returned
vector is `internal_value[i] + c·sqrt(ln(time)/count[i])` at every index
with a nonzero count and `+∞` (numpy `inf`) at every index with count 0 —
so the player's exploitation branch `np.argmax` lands on an arm with count
0 whenever one exists, in preference to every finite-valued arm. -/
theorem c3_ucb_estimate (st : UCBState) (prefs : List EReal) (counts : List ℕ)
    (indx : ℕ) (reward : ℝ) (values0 vals : List ℝ)
    (hv0 : st.values.getD (List.replicate prefs.length 0) = values0)
    (hvals : values0.set indx
        (values0.getD indx 0 +
          1 / (counts.getD indx 0 : ℝ) * (reward - values0.getD indx 0)) = vals)
    (hval : values0.length = counts.length) (hidx : indx < counts.length)
    (hcnt : 1 ≤ counts.getD indx 0) (hc : 0 < st.c) (ht : 1 ≤ st.time) :
    (ucbEstimate st prefs counts indx reward).1.time = st.time + 1 ∧
    (ucbEstimate st prefs counts indx reward).1.values = some vals ∧
    (∀ i, i < counts.length → counts.getD i 0 ≠ 0 →
      (ucbEstimate st prefs counts indx reward).2.getD i ⊥ =
        ((vals.getD i 0 +
            st.c * Real.sqrt (Real.log ((st.time + 1 : ℕ) : ℝ) / (counts.getD i 0 : ℝ))
          : ℝ) : EReal)) ∧
    (∀ i, i < counts.length → counts.getD i 0 = 0 →
      (ucbEstimate st prefs counts indx reward).2.getD i ⊥ = ⊤) ∧
    ((∃ i, i < counts.length ∧ counts.getD i 0 = 0) →
      counts.getD (argmaxE (ucbEstimate st prefs counts indx reward).2) 0 = 0) := by
  have hvlen : vals.length = counts.length := by
    rw [← hvals, List.length_set, hval]
  have hout : (ucbEstimate st prefs counts indx reward).2 =
      vals.zipWith
        (fun (val : ℝ) (cnt : ℕ) =>
          (val : EReal) + (st.c : EReal) *
            esqrt (fdivPos (Real.log ((st.time + 1 : ℕ) : ℝ)) (cnt : ℝ)))
        counts := by
    simp only [ucbEstimate, hv0, hvals]
  have houtlen : (ucbEstimate st prefs counts indx reward).2.length = counts.length := by
    rw [hout, List.length_zipWith, hvlen, min_self]
  have hfin : ∀ i, i < counts.length → counts.getD i 0 ≠ 0 →
      (ucbEstimate st prefs counts indx reward).2.getD i ⊥ =
        ((vals.getD i 0 +
            st.c * Real.sqrt (Real.log ((st.time + 1 : ℕ) : ℝ) / (counts.getD i 0 : ℝ))
          : ℝ) : EReal) := by
    intro i hi hcnt0
    rw [hout, getD_zipWith _ _ _ _ 0 0 ⊥ (hvlen ▸ hi) hi]
    have hcR : ((counts.getD i 0 : ℕ) : ℝ) ≠ 0 := Nat.cast_ne_zero.mpr hcnt0
    rw [fdivPos, if_neg hcR, esqrt, if_neg (EReal.coe_ne_top _), EReal.toReal_coe,
      ← EReal.coe_mul, ← EReal.coe_add]
  have hinf : ∀ i, i < counts.length → counts.getD i 0 = 0 →
      (ucbEstimate st prefs counts indx reward).2.getD i ⊥ = ⊤ := by
    intro i hi hcnt0
    rw [hout, getD_zipWith _ _ _ _ 0 0 ⊥ (hvlen ▸ hi) hi, hcnt0]
    have h1 : fdivPos (Real.log ((st.time + 1 : ℕ) : ℝ)) (((0 : ℕ) : ℝ)) = ⊤ := by
      rw [fdivPos, if_pos (by norm_num)]
    rw [h1, esqrt, if_pos rfl, EReal.mul_top_of_pos (EReal.coe_pos.mpr hc)]
    rfl
  refine ⟨rfl, by simp only [ucbEstimate, hv0, hvals], hfin, hinf, ?_⟩
  rintro ⟨i, hi, hcnt0⟩
  have htop := hinf i hi hcnt0
  have hmaxtop := argmaxE_top _ i (houtlen ▸ hi) htop
  by_contra hne0
  have hmaxlt : argmaxE (ucbEstimate st prefs counts indx reward).2 < counts.length := by
    have hne : (ucbEstimate st prefs counts indx reward).2 ≠ [] := by
      intro hnil
      rw [hnil] at houtlen
      simp only [List.length_nil] at houtlen
      omega
    have := argmaxP_lt_length _ hne
    rwa [houtlen] at this
  have := hfin _ hmaxlt hne0
  rw [hmaxtop] at this
  exact (EReal.coe_ne_top _) this.symm

/-- C3 witness: second step of a UCB(2) player on two arms where arm 0 has
been pulled once and arm 1 never — the returned vector is `+∞` at arm 1 and
`np.argmax` picks an arm with count 0. -/
theorem c3_witness :
    (ucbEstimate (ucbInit 2) [(0 : EReal), 0] [1, 0] 0 1).1.time = 1 + 1 ∧
    (ucbEstimate (ucbInit 2) [(0 : EReal), 0] [1, 0] 0 1).2.getD 1 ⊥ = ⊤ ∧
    [1, 0].getD (argmaxE (ucbEstimate (ucbInit 2) [(0 : EReal), 0] [1, 0] 0 1).2) 0 = 0 := by
  have h := c3_ucb_estimate (ucbInit 2) [(0 : EReal), 0] [1, 0] 0 1
    (List.replicate 2 0) ((List.replicate 2 (0 : ℝ)).set 0 (0 + 1 / ((1 : ℕ) : ℝ) * (1 - 0)))
    rfl (by norm_num) (by decide) (by decide) (by decide) (by show (0 : ℝ) < 2; norm_num)
    (by decide)
  exact ⟨h.1, h.2.2.2.1 1 (by decide) (by decide), h.2.2.2.2 ⟨1, by decide, by decide⟩⟩

/-! ### C10: the UCB output never depends on the incoming preference
values, only on their number -/

/-- C10. `UCB.estimate_values` reads the incoming preference vector only
through its length (the lazy sizing of the internal value array): two calls
with identical internal state, counts, index and reward but different
preference vectors of equal length return identical results; consequently a
UCB player's preference vector (optimistic baseline included) is completely
replaced by the UCB output at the first step, and two players differing
only in their initial preference vectors (of equal length) coincide in all
state from the first step on. -/
theorem c10_ucb_preference_noninterference (st : UCBState) (p1 p2 : List EReal)
    (counts : List ℕ) (indx : ℕ) (reward : ℝ) (hlen : p1.length = p2.length)
    (p : UCBPlayer) (q : List EReal) (hq : q.length = p.preferences.length)
    (dn : ℕ → ℝ) (rn : ℝ) (i step : ℕ) (steps : List (ℕ × (ℕ → ℝ) × ℝ)) :
    ucbEstimate st p1 counts indx reward = ucbEstimate st p2 counts indx reward ∧
    ({ p with preferences := q } : UCBPlayer).useArm dn rn i = p.useArm dn rn i ∧
    ({ p with preferences := q } : UCBPlayer).runSeq step ((i, dn, rn) :: steps) =
      p.runSeq step ((i, dn, rn) :: steps) := by
  have key : ∀ (s : UCBState) (a b : List EReal) (cs : List ℕ) (j : ℕ) (r : ℝ),
      a.length = b.length → ucbEstimate s a cs j r = ucbEstimate s b cs j r := by
    intro s a b cs j r h
    unfold ucbEstimate
    rw [h]
  have harm : ({ p with preferences := q } : UCBPlayer).useArm dn rn i =
      p.useArm dn rn i := by
    simp only [UCBPlayer.useArm]
    rw [key p.strategy q p.preferences (incCount p.numberOfActions i) i
      (p.bandit.actionReward dn rn i) hq]
  refine ⟨key st p1 p2 counts indx reward hlen, harm, ?_⟩
  simp only [UCBPlayer.runSeq]
  rw [harm]

/-- C10 witness: a concrete one-step run from the zero and the optimistic
preference vector coincides. -/
theorem c10_witness :
    ucbEstimate (ucbInit 2) [(0 : EReal), 0] [1, 0] 0 1 =
      ucbEstimate (ucbInit 2) [(5 : EReal), 5] [1, 0] 0 1 :=
  (c10_ucb_preference_noninterference (ucbInit 2) [(0 : EReal), 0] [(5 : EReal), 5]
    [1, 0] 0 1 (by decide) (mkUCBPlayer ⟨1, [some 0], 0, [⟨0, 0⟩]⟩ 0 1 2 false 5)
    [(0 : EReal)] (by decide) (fun _ => 0) 0 0 0 []).1

/-! ### C1: what `BanditPlayer.reset` does and does not restore -/

theorem runSeq_preserves_config (steps : List (ℕ × (ℕ → ℝ) × ℝ)) :
    ∀ (p : UCBPlayer) (step : ℕ),
      (p.runSeq step steps).eps = p.eps ∧
      (p.runSeq step steps).nSteps = p.nSteps ∧
      (p.runSeq step steps).optimist = p.optimist ∧
      (p.runSeq step steps).baseline = p.baseline ∧
      (p.runSeq step steps).bandit.n = p.bandit.n ∧
      (p.runSeq step steps).bandit.qSpec = p.bandit.qSpec ∧
      (p.runSeq step steps).bandit.incrDev = p.bandit.incrDev := by
  induction steps with
  | nil => exact fun p step => ⟨rfl, rfl, rfl, rfl, rfl, rfl, rfl⟩
  | cons s rest ih =>
      intro p step
      obtain ⟨indx, dn, rn⟩ := s
      exact ih _ (step + 1)

/-- C1 counterexample (the claim as stated is false): a freshly constructed
UCB player that uses one arm and is then `reset()` does not return to its
construction-time state — the strategy's internal state (here its time
counter, grown from 1 to 2) survives the reset and carries information from
the run. -/
theorem c1_counterexample :
    ((((mkUCBPlayer ⟨1, [some 0], 0, [⟨0, 0⟩]⟩ 0 1 2 false 5).useArm
          (fun _ => 0) 0 0).1.reset (fun _ => 0)).strategy ≠
      (mkUCBPlayer ⟨1, [some 0], 0, [⟨0, 0⟩]⟩ 0 1 2 false 5).strategy) := by
  intro h
  have := congrArg UCBState.time h
  simp only [UCBPlayer.reset, UCBPlayer.useArm, ucbEstimate, mkUCBPlayer, ucbInit] at this
  omega

/-- C1 amended. `BanditPlayer.reset` restores the rewards sequence, the
per-arm action counts, the preference vector (optimistic baseline
reapplied) and — for a bandit built from explicit arm values — the arm set
to their construction-time initial values, after an arbitrary run; but the
internal state of the owned `Strategy` instance is NOT reinitialised: the
post-reset strategy is exactly the post-run strategy. -/
theorem c1_reset_restores_all_but_strategy (n : ℕ) (v : List ℝ) (d : ℝ)
    (s0 samples : ℕ → ℝ) (eps baseline c : ℝ) (nSteps : ℕ) (optimist : Bool)
    (steps : List (ℕ × (ℕ → ℝ) × ℝ)) (b : Bandit)
    (hb : banditInit n (some v) d s0 = Except.ok b) :
    (((mkUCBPlayer b eps nSteps c optimist baseline).runSeq 0 steps).reset samples).rewards =
      (mkUCBPlayer b eps nSteps c optimist baseline).rewards ∧
    (((mkUCBPlayer b eps nSteps c optimist baseline).runSeq 0 steps).reset
        samples).numberOfActions =
      (mkUCBPlayer b eps nSteps c optimist baseline).numberOfActions ∧
    (((mkUCBPlayer b eps nSteps c optimist baseline).runSeq 0 steps).reset
        samples).preferences =
      (mkUCBPlayer b eps nSteps c optimist baseline).preferences ∧
    (((mkUCBPlayer b eps nSteps c optimist baseline).runSeq 0 steps).reset
        samples).bandit.arms.map Arm.q = b.arms.map Arm.q ∧
    (((mkUCBPlayer b eps nSteps c optimist baseline).runSeq 0 steps).reset
        samples).strategy =
      ((mkUCBPlayer b eps nSteps c optimist baseline).runSeq 0 steps).strategy := by
  have hlen : v.length = n := by
    by_cases h : v.length = n
    · exact h
    · simp [banditInit, h] at hb
  have hbq : b.qSpec = v.map some := by
    simp [banditInit, hlen] at hb
    rw [← hb]
  have hbarms : b.arms = mkArms d s0 0 (v.map some) := by
    simp [banditInit, hlen] at hb
    rw [← hb]
  have hbincr : b.incrDev = d := by
    simp [banditInit, hlen] at hb
    rw [← hb]
  have hpres := runSeq_preserves_config steps (mkUCBPlayer b eps nSteps c optimist baseline) 0
  obtain ⟨-, hn, hopt, hbl, hbn, hbspec, hbd⟩ := hpres
  refine ⟨?_, ?_, ?_, ?_, rfl⟩
  · exact congrArg (fun k => List.replicate k (0 : ℝ)) hn
  · exact congrArg (fun k => List.replicate k (0 : ℕ)) hbn
  · have h3 : initPrefs
        (((mkUCBPlayer b eps nSteps c optimist baseline).runSeq 0 steps).bandit.n)
        (((mkUCBPlayer b eps nSteps c optimist baseline).runSeq 0 steps).optimist)
        (((mkUCBPlayer b eps nSteps c optimist baseline).runSeq 0 steps).baseline) =
        initPrefs b.n optimist baseline := by
      rw [hbn, hopt, hbl]
      rfl
    exact congrArg (List.map (fun x => ((x : ℝ) : EReal))) h3
  · have h4 : mkArms
        (((mkUCBPlayer b eps nSteps c optimist baseline).runSeq 0 steps).bandit.incrDev)
        samples 0
        (((mkUCBPlayer b eps nSteps c optimist baseline).runSeq 0 steps).bandit.qSpec) =
        mkArms d samples 0 (v.map some) := by
      rw [hbd, hbspec]
      show mkArms b.incrDev samples 0 b.qSpec = _
      rw [hbincr, hbq]
    show (mkArms
        (((mkUCBPlayer b eps nSteps c optimist baseline).runSeq 0 steps).bandit.incrDev)
        samples 0
        (((mkUCBPlayer b eps nSteps c optimist baseline).runSeq 0 steps).bandit.qSpec)).map
        Arm.q = b.arms.map Arm.q
    rw [h4, hbarms, mkArms_map_q, mkArms_map_q]

/-- C1 witness: a one-armed explicit-value player, one step, then reset:
the post-reset strategy equals the post-run strategy. -/
theorem c1_witness :
    banditInit 1 (some [0]) 0 (fun _ => 0) =
      Except.ok (⟨1, [some 0], 0, [⟨0, 0⟩]⟩ : Bandit) ∧
    (((mkUCBPlayer ⟨1, [some 0], 0, [⟨0, 0⟩]⟩ 0 1 2 false 5).runSeq 0
        [(0, fun _ => 0, 0)]).reset (fun _ => 0)).strategy =
      ((mkUCBPlayer ⟨1, [some 0], 0, [⟨0, 0⟩]⟩ 0 1 2 false 5).runSeq 0
        [(0, fun _ => 0, 0)]).strategy :=
  ⟨rfl, (c1_reset_restores_all_but_strategy 1 [0] 0 (fun _ => 0) (fun _ => 0) 0 5 2 1 false
      [(0, fun _ => 0, 0)] ⟨1, [some 0], 0, [⟨0, 0⟩]⟩ rfl).2.2.2.2⟩


/-- C9. `BanditPlayer.use_arm` increments the chosen arm's action count
before invoking the strategy, so the counts array handed to
`estimate_values` (held in the post-call `counts` field) is at least 1 at
the chosen index — the divisions by `number_of_actions[indx]` in
`SampleAverages` and in UCB's internal update never divide by zero. -/
theorem c9_chosen_count_positive (s : SAState) (p : UCBPlayer) (indx : ℕ)
    (reward rewardNoise : ℝ) (driftNoise : ℕ → ℝ)
    (hs : indx < s.counts.length) (hp : indx < p.numberOfActions.length) :
    1 ≤ (saUseArm s indx reward).counts.getD indx 0 ∧
    1 ≤ ((p.useArm driftNoise rewardNoise indx).1.numberOfActions.getD indx 0) := by
  constructor
  · show 1 ≤ (incCount s.counts indx).getD indx 0
    rw [incCount, getD_set_self _ _ _ _ hs]
    omega
  · show 1 ≤ (incCount p.numberOfActions indx).getD indx 0
    rw [incCount, getD_set_self _ _ _ _ hp]
    omega

/-- C9 witness at a concrete one-armed state with all counts zero. -/
theorem c9_witness :
    1 ≤ (saUseArm ⟨[0], [0]⟩ 0 5).counts.getD 0 0 ∧
    1 ≤ (((mkUCBPlayer ⟨1, [some 0], 0, [⟨0, 0⟩]⟩ 0 1 2 false 5).useArm
          (fun _ => 0) 0 0).1.numberOfActions.getD 0 0) :=
  c9_chosen_count_positive ⟨[0], [0]⟩ (mkUCBPlayer ⟨1, [some 0], 0, [⟨0, 0⟩]⟩ 0 1 2 false 5)
    0 5 0 (fun _ => 0) (by decide) (by decide)

end

end MAB
